import Mathlib

/-!
Verification of the `stdiocmd` message server (stdiocmd.go) against its
natural-language specification.

The Go source is shallowly embedded:

* `Message`, `DecodeOutcome` model the values produced by `InDecoder.Decode`.
* `serveLoop` is the body of `MessageServer.Serve` run over a finite prefix
  of decode outcomes; the goroutine spawned per message (with its two
  deferred calls `wg.Done()` and the `recover` handler) is modelled by
  `serveGoroutine` / `runDeferredStack`, following Go's LIFO defer semantics.
* `serveLoopFuel` is the same loop with explicit fuel over an infinite
  decoder, for termination questions.
* `WGEvent` traces model the `sync.WaitGroup` held in `MessageServer.wg`.
* `SyncEncState`/`SyncEncStep` is a small-step machine for concurrent calls
  to `SyncEncoder.Encode` under the mutex `se.mu`.
* `EncoderVal.Encode` models which lock operations surround the raw stream
  write for a bare `json.Encoder` versus a `SyncEncoder`-wrapped one.
-/

namespace Stdiocmd

/-- A JSON-like dynamically typed value, modelling Go's `interface{}` as used
by `encoding/json` (strings, numbers, booleans, nested maps/arrays, null). -/
inductive JValue where
  | null
  | bool (b : Bool)
  | num (n : Int)
  | str (s : String)
  | arr (elems : List JValue)
  | obj (fields : List (String × JValue))

/-- Model of `Message`, a generic string-keyed map (`type Message map[string]interface\x7b\x7d`). -/
def Message : Type := List (String × JValue)

/-- The possible results of one `ms.InDecoder.Decode(&msg)` call, as the Serve
loop distinguishes them: `io.EOF`, `io.ErrUnexpectedEOF`, any other error
(carrying the partially decoded message left in `msg`), or success. -/
inductive DecodeOutcome where
  | eof
  | unexpectedEOF
  | err (e : String) (badMsg : Message)
  | ok (m : Message)

/-- The two terminal conditions `Serve` can return (`io.EOF` and
`io.ErrUnexpectedEOF`). -/
inductive TermErr where
  | eof
  | unexpectedEOF
deriving DecidableEq

/-- Classify a decode outcome as terminal or not, mirroring the test
`err == io.EOF || err == io.ErrUnexpectedEOF` on line 100. -/
def classifyTerm : DecodeOutcome → Option TermErr
  | .eof => some TermErr.eof
  | .unexpectedEOF => some TermErr.unexpectedEOF
  | .err _ _ => none
  | .ok _ => none

/-- Outcome of running a Go function body: normal return, or a panic carrying
a value. -/
inductive Outcome (α : Type) where
  | ok (a : α)
  | panic (v : String)

/-- What one handler invocation `mh.HandleMessage(mw, msg)` does: the replies
it passes to `mw.WriteMessage` before finishing, and whether it returns
normally or panics. -/
structure HandlerBehavior where
  writes : List Message
  outcome : Outcome Unit

/-- The log entry produced by the `recover` branch in the goroutine:
`log.Printf("Caught panic in MessageServer.Serve(): %v\n%s", r, st)` with the
panic value `r` and the `debug.Stack()` trace `st`. -/
structure PanicLog where
  panicValue : String
  stackTrace : String
deriving DecidableEq

/-- The deferred calls the goroutine body registers (in registration order:
`defer ms.wg.Done()` first, then the `recover`-and-log closure). -/
inductive DeferredCall where
  | wgDone
  | recoverLog
deriving DecidableEq

/-- Net effect of one spawned goroutine: how many times `wg.Done()` ran, what
the `recover` branch logged, and any panic that escaped the goroutine (which
would crash the whole process in Go). -/
structure GoroutineResult where
  wgDoneCalls : Nat
  panicLogs : List PanicLog
  escaped : Option String
deriving DecidableEq

/-- Run a stack of deferred calls (head = most recently registered = first to
run, per Go's LIFO rule) with a pending panic value. `recover()` returns the
pending panic and clears it, so a deferred call after a successful `recover`
no longer sees a pending panic; a pending panic that survives all deferred
calls escapes. `st` is the string `debug.Stack()` yields inside the recover
branch. -/
def runDeferredStack (st : String) : List DeferredCall → Option String → GoroutineResult
  | [], pending => { wgDoneCalls := 0, panicLogs := [], escaped := pending }
  | DeferredCall.wgDone :: rest, pending =>
      let r := runDeferredStack st rest pending
      { r with wgDoneCalls := r.wgDoneCalls + 1 }
  | DeferredCall.recoverLog :: rest, pending =>
      match pending with
      | some v =>
          let r := runDeferredStack st rest none
          { r with panicLogs := { panicValue := v, stackTrace := st } :: r.panicLogs }
      | none => runDeferredStack st rest none

/-- The goroutine spawned per successfully decoded message (lines 108–117):
registers `defer ms.wg.Done()`, then the recover/log closure, then runs
`mh.HandleMessage(mw, msg)`; its deferred stack then runs against whatever
panic the handler left pending. -/
def serveGoroutine (mh : Message → HandlerBehavior) (st : String) (msg : Message) :
    GoroutineResult :=
  let pending : Option String :=
    match (mh msg).outcome with
    | Outcome.ok _ => none
    | Outcome.panic v => some v
  runDeferredStack st [DeferredCall.recoverLog, DeferredCall.wgDone] pending

/-- The log line of the decode-error branch:
`log.Printf("MessageServer.Serve() got error while decoding input: %v", err)`. -/
def decodeErrorLog (e : String) : String :=
  "MessageServer.Serve() got error while decoding input: " ++ e

/-- Everything observable from one run of the `Serve` loop over a finite
prefix of decode outcomes. -/
structure ServeResult where
  /-- messages handed to spawned goroutines, in dispatch order -/
  dispatched : List Message
  /-- number of `ms.wg.Add(1)` calls -/
  wgAdds : Nat
  /-- log lines from the decode-error branch, in order -/
  decodeErrorLogs : List String
  /-- result of each spawned goroutine, in dispatch order -/
  goroutines : List GoroutineResult
  /-- replies each dispatched handler invocation wrote, in dispatch order -/
  handlerWrites : List (List Message)
  /-- `Serve`'s return value; `none` means the loop is still running
  (the given prefix of decode outcomes was exhausted without termination) -/
  reterr : Option TermErr

/-- The loop body of `MessageServer.Serve` (lines 96–118), run over a finite
prefix of decode outcomes. On `io.EOF`/`io.ErrUnexpectedEOF` it breaks,
returning that error; on any other decode error it logs and continues,
discarding the partially decoded message; on success it does `wg.Add(1)` and
spawns the handler goroutine.  `st` is the stack-trace string a recover
branch would log. -/
def serveLoop (mh : Message → HandlerBehavior) (st : String) :
    List DecodeOutcome → ServeResult
  | [] =>
      { dispatched := [], wgAdds := 0, decodeErrorLogs := [], goroutines := [],
        handlerWrites := [], reterr := none }
  | DecodeOutcome.eof :: _ =>
      { dispatched := [], wgAdds := 0, decodeErrorLogs := [], goroutines := [],
        handlerWrites := [], reterr := some TermErr.eof }
  | DecodeOutcome.unexpectedEOF :: _ =>
      { dispatched := [], wgAdds := 0, decodeErrorLogs := [], goroutines := [],
        handlerWrites := [], reterr := some TermErr.unexpectedEOF }
  | DecodeOutcome.err e _pm :: rest =>
      let r := serveLoop mh st rest
      { r with decodeErrorLogs := decodeErrorLog e :: r.decodeErrorLogs }
  | DecodeOutcome.ok m :: rest =>
      let r := serveLoop mh st rest
      { r with dispatched := m :: r.dispatched,
               wgAdds := r.wgAdds + 1,
               goroutines := serveGoroutine mh st m :: r.goroutines,
               handlerWrites := (mh m).writes :: r.handlerWrites }

/-- The `Serve` loop over an infinite decoder `dec` (the result of the `i`-th
`Decode` call is `dec i`), with explicit fuel bounding how many iterations we
observe: `none` means the loop was still running after `fuel` iterations,
`some t` means it terminated returning `t`. -/
def serveLoopFuel (dec : Nat → DecodeOutcome) : Nat → Nat → Option TermErr
  | 0, _ => none
  | fuel + 1, i =>
      match dec i with
      | DecodeOutcome.eof => some TermErr.eof
      | DecodeOutcome.unexpectedEOF => some TermErr.unexpectedEOF
      | DecodeOutcome.err _ _ => serveLoopFuel dec fuel (i + 1)
      | DecodeOutcome.ok _ => serveLoopFuel dec fuel (i + 1)

/-! ### The `sync.WaitGroup` in `MessageServer.wg`

Dispatch and completion interleave arbitrarily; we model the counter through
event traces.  Task `i` is the `i`-th dispatched goroutine (`wg.Add(1)` on
line 107 numbers it); its deferred `wg.Done()` (line 109) is `done i`. -/

/-- One event on the server's wait group: a `wg.Add(1)` at dispatch, or the
`wg.Done()` of the goroutine dispatched `i`-th. -/
inductive WGEvent where
  | add
  | done (task : Nat)
deriving DecidableEq

/-- Number of `wg.Add(1)` calls in a trace. -/
def addsCount : List WGEvent → Nat
  | [] => 0
  | WGEvent.add :: tr => addsCount tr + 1
  | WGEvent.done _ :: tr => addsCount tr

/-- The tasks whose `wg.Done()` has run, in trace order. -/
def doneTasks : List WGEvent → List Nat
  | [] => []
  | WGEvent.add :: tr => doneTasks tr
  | WGEvent.done i :: tr => i :: doneTasks tr

/-- A trace is feasible when every `wg.Done()` belongs to a task that was
already dispatched and has not completed before: `d` counts dispatches so
far, `cs` the tasks already completed. -/
def feasibleAux : Nat → List Nat → List WGEvent → Bool
  | _, _, [] => true
  | d, cs, WGEvent.add :: tr => feasibleAux (d + 1) cs tr
  | d, cs, WGEvent.done i :: tr =>
      decide (i < d) && decide (i ∉ cs) && feasibleAux d (i :: cs) tr

/-- Feasible complete trace, starting from a fresh wait group. -/
def Feasible (tr : List WGEvent) : Prop := feasibleAux 0 [] tr = true

/-- The wait-group counter after a trace: incremented by each `Add(1)`,
decremented by each `Done()`. -/
def wgCounter (tr : List WGEvent) : Nat := addsCount tr - (doneTasks tr).length

/-- Model of `MessageServer.Wait`, which is `ms.wg.Wait()`: it returns at a point of the
execution exactly when the counter is zero there. -/
def waitReturns (tr : List WGEvent) : Prop := wgCounter tr = 0

/-! ### Encoders, the message writer, and the server structure -/

/-- Lock and stream operations performed by an `Encode` call, as visible on
the shared output: acquiring/releasing a `SyncEncoder`'s mutex, and the raw
serialized write of a message by the underlying stream encoder. -/
inductive EncAction where
  | lockAcquire
  | lockRelease
  | streamWrite (m : Message)

/-- An `Encoder` value the server can be configured with: a bare stream
encoder (`json.NewEncoder(...)`) or a `SyncEncoder` wrapping another
encoder. -/
inductive EncoderVal where
  | jsonEncoder
  | syncEncoder (inner : EncoderVal)

/-- The operations an `Encode(m)` call performs: a bare `json.Encoder` just
writes the serialization to its stream; `SyncEncoder.Encode` takes `se.mu`,
calls the inner encoder, and releases `se.mu` (lines 47–51). -/
def EncoderVal.Encode : EncoderVal → Message → List EncAction
  | EncoderVal.jsonEncoder, m => [EncAction.streamWrite m]
  | EncoderVal.syncEncoder inner, m =>
      EncAction.lockAcquire :: (inner.Encode m ++ [EncAction.lockRelease])

/-- Model of `EncoderMessageWriter`, which implements `MessageWriter` on top of an
`Encoder` (lines 22–25). -/
structure EncoderMessageWriter where
  Encoder : EncoderVal

/-- Model of `WriteMessage`, which returns `emw.Encoder.Encode(m)` (lines 27–29): here, the
operations that call performs. -/
def EncoderMessageWriter.WriteMessage (emw : EncoderMessageWriter) (m : Message) :
    List EncAction :=
  emw.Encoder.Encode m

/-- Model of `MessageServer` (lines 81–86): the decoder's outcomes, the configured
output encoder, and the handler. -/
structure MessageServer where
  InDecoder : List DecodeOutcome
  OutEncoder : EncoderVal
  MessageHandler : Message → HandlerBehavior

/-- Model of `NewStdMessageServer` (lines 69–78): decodes from stdin (whose decode
outcomes are `stdin`) and wraps the stdout `json.Encoder` in a
`SyncEncoder`. -/
def NewStdMessageServer (stdin : List DecodeOutcome) (h : Message → HandlerBehavior) :
    MessageServer :=
  { InDecoder := stdin,
    OutEncoder := EncoderVal.syncEncoder EncoderVal.jsonEncoder,
    MessageHandler := h }

/-- The writer `Serve` constructs for the handlers:
`mw := &EncoderMessageWriter{Encoder: ms.OutEncoder}` (line 97). -/
def MessageServer.serveWriter (ms : MessageServer) : EncoderMessageWriter :=
  { Encoder := ms.OutEncoder }

/-- Model of `MessageServer.Serve` (lines 94–121) on the server structure: the loop
over the decoder's outcomes. -/
def MessageServer.Serve (ms : MessageServer) (st : String) : ServeResult :=
  serveLoop ms.MessageHandler st ms.InDecoder

/-! ### Sequential model of `SyncEncoder.Encode` (lines 47–51)

`se.mu.Lock()` blocks while the mutex is held, modelled by returning `none`;
otherwise the body runs with the mutex held and the deferred
`se.mu.Unlock()` releases it on every exit path, the call returning the
inner encoder's result unchanged. -/

/-- One `SyncEncoder.Encode(v)` call: `mu` is whether `se.mu` is held at
entry; the result is the mutex state after the call together with the value
`se.Encoder.Encode(v)` returned. -/
def SyncEncoder.Encode (innerEncode : Message → Except String Unit) (m : Message)
    (mu : Bool) : Option (Bool × Except String Unit) :=
  if mu then
    none
  else
    -- se.mu.Lock(); defer se.mu.Unlock(); return se.Encoder.Encode(v)
    let r := innerEncode m
    some (false, r)

/-- A sequence of `SyncEncoder.Encode` calls, threading the mutex state. -/
def SyncEncoder.encodeAll (innerEncode : Message → Except String Unit) :
    List Message → Bool → Option (Bool × List (Except String Unit))
  | [], mu => some (mu, [])
  | m :: ms, mu =>
      match SyncEncoder.Encode innerEncode m mu with
      | none => none
      | some (mu', r) =>
          match SyncEncoder.encodeAll innerEncode ms mu' with
          | none => none
          | some (mu'', rs) => some (mu'', r :: rs)

/-! ### Concurrent calls to `SyncEncoder.Encode`: a small-step machine

Several handler goroutines call `se.Encode(v)` on the shared `SyncEncoder`.
`se.mu.Lock()` admits one caller at a time; while inside, the inner encoder
writes the serialization of the caller's message to the shared stream (we
let each serialization be an arbitrary list of chunks, so that an
unsynchronized writer could interleave); `se.mu.Unlock()` releases.  Thread
`t`'s message serializes to the chunk list `chunksOf t`. -/

/-- Control state of one thread calling `SyncEncoder.Encode`: before
`se.mu.Lock()`, inside the critical section with the chunks still to write,
or returned. -/
inductive EncPhase where
  | start (chunks : List String)
  | locked (remaining : List String)
  | finished
deriving DecidableEq

/-- Global state: who holds `se.mu`, each thread's control state, and the
chunks written to the shared output stream so far (tagged with the writing
thread). -/
structure SyncEncState (n : Nat) where
  lock : Option (Fin n)
  phases : Fin n → EncPhase
  out : List (Fin n × String)

/-- Interleaving semantics of the concurrent `SyncEncoder.Encode` calls:
a thread may take the free mutex, the mutex holder may write its next chunk
to the shared stream, and the holder releases the mutex once its chunks are
written. -/
inductive SyncEncStep {n : Nat} : SyncEncState n → SyncEncState n → Prop where
  | acquire (s : SyncEncState n) (t : Fin n) (cs : List String)
      (hfree : s.lock = none) (hph : s.phases t = EncPhase.start cs) :
      SyncEncStep s
        { lock := some t,
          phases := Function.update s.phases t (EncPhase.locked cs),
          out := s.out }
  | emit (s : SyncEncState n) (t : Fin n) (c : String) (rest : List String)
      (hold : s.lock = some t) (hph : s.phases t = EncPhase.locked (c :: rest)) :
      SyncEncStep s
        { lock := s.lock,
          phases := Function.update s.phases t (EncPhase.locked rest),
          out := s.out ++ [(t, c)] }
  | release (s : SyncEncState n) (t : Fin n)
      (hold : s.lock = some t) (hph : s.phases t = EncPhase.locked []) :
      SyncEncStep s
        { lock := none,
          phases := Function.update s.phases t EncPhase.finished,
          out := s.out }

/-- Initial state: mutex free, every thread about to call `Encode`, nothing
written. -/
def initSyncEnc {n : Nat} (chunksOf : Fin n → List String) : SyncEncState n :=
  { lock := none, phases := fun t => EncPhase.start (chunksOf t), out := [] }

/-- States reachable by interleaving the concurrent `Encode` calls. -/
def SyncEncReachable {n : Nat} (chunksOf : Fin n → List String)
    (s : SyncEncState n) : Prop :=
  Relation.ReflTransGen SyncEncStep (initSyncEnc chunksOf) s

/-- The chunks thread `t` has written to the shared stream, in order. -/
def threadChunks {n : Nat} (t : Fin n) (out : List (Fin n × String)) : List String :=
  (out.filter fun p => p.1 == t).map Prod.snd

/-- Flatten a list of per-thread blocks into a tagged output stream. -/
def blocksFlatten {n : Nat} : List (Fin n × List String) → List (Fin n × String)
  | [] => []
  | b :: bs => (b.2.map fun c => (b.1, c)) ++ blocksFlatten bs

theorem threadChunks_append {n : Nat} (t : Fin n) (xs ys : List (Fin n × String)) :
    threadChunks t (xs ++ ys) = threadChunks t xs ++ threadChunks t ys := by
  simp [threadChunks, List.filter_append]

theorem threadChunks_map_self {n : Nat} (t : Fin n) (cs : List String) :
    threadChunks t (cs.map fun c => (t, c)) = cs := by
  induction cs with
  | nil => rfl
  | cons c cs ih => simp_all [threadChunks]

theorem threadChunks_map_ne {n : Nat} (t u : Fin n) (h : u ≠ t) (cs : List String) :
    threadChunks t (cs.map fun c => (u, c)) = [] := by
  induction cs with
  | nil => rfl
  | cons c cs ih => simp_all [threadChunks]

theorem threadChunks_snoc_self {n : Nat} (t : Fin n) (out : List (Fin n × String))
    (c : String) : threadChunks t (out ++ [(t, c)]) = threadChunks t out ++ [c] := by
  simp [threadChunks_append, threadChunks]

theorem threadChunks_snoc_ne {n : Nat} (t u : Fin n) (h : u ≠ t)
    (out : List (Fin n × String)) (c : String) :
    threadChunks t (out ++ [(u, c)]) = threadChunks t out := by
  simp [threadChunks_append, threadChunks, h]

theorem blocksFlatten_append {n : Nat} (xs ys : List (Fin n × List String)) :
    blocksFlatten (xs ++ ys) = blocksFlatten xs ++ blocksFlatten ys := by
  induction xs with
  | nil => rfl
  | cons b xs ih => simp [blocksFlatten, ih]

theorem threadChunks_blocksFlatten_of_not_mem {n : Nat} (t : Fin n)
    (bs : List (Fin n × List String)) (h : t ∉ bs.map Prod.fst) :
    threadChunks t (blocksFlatten bs) = [] := by
  induction bs with
  | nil => rfl
  | cons b bs ih =>
      simp only [List.map_cons, List.mem_cons] at h
      push_neg at h
      rw [blocksFlatten, threadChunks_append,
        threadChunks_map_ne t b.1 (Ne.symm h.1) b.2, ih h.2]
      rfl

theorem threadChunks_blocksFlatten_of_mem {n : Nat} (t : Fin n) (cs : List String)
    (bs : List (Fin n × List String)) (hmem : (t, cs) ∈ bs)
    (hnd : (bs.map Prod.fst).Nodup) :
    threadChunks t (blocksFlatten bs) = cs := by
  induction bs with
  | nil => cases hmem
  | cons b bs ih =>
      simp only [List.map_cons, List.nodup_cons] at hnd
      rcases List.mem_cons.mp hmem with hb | hb
      · subst hb
        rw [blocksFlatten, threadChunks_append, threadChunks_map_self,
          threadChunks_blocksFlatten_of_not_mem t bs hnd.1, List.append_nil]
      · have ht : t ∈ bs.map Prod.fst := List.mem_map.mpr ⟨(t, cs), hb, rfl⟩
        have hne : b.1 ≠ t := fun he => hnd.1 (he ▸ ht)
        rw [blocksFlatten, threadChunks_append, threadChunks_map_ne t b.1 hne,
          ih hb hnd.2]
        rfl

/-- The inductive invariant of the concurrent-`Encode` machine: the mutex
holder is the only thread in the critical section, each thread's writes on
the shared stream are a prefix of its serialization matching its control
state, and the stream so far is a sequence of whole per-thread blocks in
which only the last block (the mutex holder's, still being written) can be
incomplete. -/
structure SyncEncInv {n : Nat} (chunksOf : Fin n → List String)
    (s : SyncEncState n) : Prop where
  lockHolder : ∀ t rem, s.phases t = EncPhase.locked rem → s.lock = some t
  holderLocked : ∀ t, s.lock = some t → ∃ rem, s.phases t = EncPhase.locked rem
  startInit : ∀ t cs, s.phases t = EncPhase.start cs →
      cs = chunksOf t ∧ threadChunks t s.out = []
  lockedProgress : ∀ t rem, s.phases t = EncPhase.locked rem →
      chunksOf t = threadChunks t s.out ++ rem
  finishedDone : ∀ t, s.phases t = EncPhase.finished →
      threadChunks t s.out = chunksOf t
  blocks : ∃ bs : List (Fin n × List String),
      s.out = blocksFlatten bs ∧
      (bs.map Prod.fst).Nodup ∧
      (∀ b ∈ bs, b.2 ≠ []) ∧
      (∀ b ∈ bs.dropLast, ∀ rem, s.phases b.1 = EncPhase.locked rem → False)

theorem syncEncInv_init {n : Nat} (chunksOf : Fin n → List String) :
    SyncEncInv chunksOf (initSyncEnc chunksOf) := by
  constructor
  · intro t rem h; simp [initSyncEnc] at h
  · intro t h; simp [initSyncEnc] at h
  · intro t cs h
    simp only [initSyncEnc, EncPhase.start.injEq] at h
    exact ⟨h.symm, rfl⟩
  · intro t rem h; simp [initSyncEnc] at h
  · intro t h; simp [initSyncEnc] at h
  · exact ⟨[], rfl, by simp, by simp, by simp⟩

theorem syncEncInv_step {n : Nat} (chunksOf : Fin n → List String)
    {s s' : SyncEncState n} (hstep : SyncEncStep s s')
    (hinv : SyncEncInv chunksOf s) : SyncEncInv chunksOf s' := by
  cases hstep with
  | acquire t cs hfree hph =>
      constructor <;> dsimp only
      · intro u rem h
        by_cases hu : u = t
        · subst hu; rfl
        · rw [Function.update_noteq hu] at h
          have := hinv.lockHolder u rem h
          rw [hfree] at this
          exact absurd this (by simp)
      · intro u h
        have hu : t = u := Option.some.inj h
        subst hu
        exact ⟨cs, Function.update_same t _ _⟩
      · intro u cs' h
        by_cases hu : u = t
        · subst hu; rw [Function.update_same] at h; cases h
        · rw [Function.update_noteq hu] at h
          exact hinv.startInit u cs' h
      · intro u rem h
        by_cases hu : u = t
        · subst hu
          rw [Function.update_same] at h
          cases h
          obtain ⟨hcs, hempty⟩ := hinv.startInit u cs hph
          show chunksOf u = threadChunks u s.out ++ cs
          rw [hempty, List.nil_append]; exact hcs.symm
        · rw [Function.update_noteq hu] at h
          exact hinv.lockedProgress u rem h
      · intro u h
        by_cases hu : u = t
        · subst hu; rw [Function.update_same] at h; cases h
        · rw [Function.update_noteq hu] at h
          exact hinv.finishedDone u h
      · obtain ⟨bs, hout, hnd, hne, hlast⟩ := hinv.blocks
        refine ⟨bs, hout, hnd, hne, ?_⟩
        intro b hb rem h
        by_cases hbt : b.1 = t
        · have hmem : b ∈ bs := (List.dropLast_sublist bs).subset hb
          have hmem' : (t, b.2) ∈ bs := by
            rw [← hbt]; simpa using hmem
          have hchunks : threadChunks t s.out = b.2 := by
            rw [hout]; exact threadChunks_blocksFlatten_of_mem t b.2 bs hmem' hnd
          obtain ⟨_, hempty⟩ := hinv.startInit t cs hph
          exact hne b hmem (by rw [← hchunks, hempty])
        · rw [Function.update_noteq hbt] at h
          exact hlast b hb rem h
  | emit t c rest hold hph =>
      constructor <;> dsimp only
      · intro u rem h
        by_cases hu : u = t
        · subst hu; exact hold
        · rw [Function.update_noteq hu] at h
          exact hinv.lockHolder u rem h
      · intro u h
        have hu : t = u := Option.some.inj (hold.symm.trans h)
        subst hu
        exact ⟨rest, Function.update_same t _ _⟩
      · intro u cs' h
        by_cases hu : u = t
        · subst hu; rw [Function.update_same] at h; cases h
        · rw [Function.update_noteq hu] at h
          obtain ⟨h1, h2⟩ := hinv.startInit u cs' h
          exact ⟨h1, by rw [threadChunks_snoc_ne u t (Ne.symm hu) s.out c]; exact h2⟩
      · intro u rem h
        by_cases hu : u = t
        · subst hu
          rw [Function.update_same] at h
          cases h
          have hp := hinv.lockedProgress u (c :: rest) hph
          show chunksOf u = threadChunks u (s.out ++ [(u, c)]) ++ rest
          rw [threadChunks_snoc_self, hp, List.append_assoc]
          rfl
        · rw [Function.update_noteq hu] at h
          have := hinv.lockHolder u rem h
          rw [hold] at this
          exact absurd (Option.some.inj this) (fun he => hu he.symm)
      · intro u h
        by_cases hu : u = t
        · subst hu; rw [Function.update_same] at h; cases h
        · rw [Function.update_noteq hu] at h
          rw [threadChunks_snoc_ne u t (Ne.symm hu) s.out c]
          exact hinv.finishedDone u h
      · obtain ⟨bs, hout, hnd, hne, hlast⟩ := hinv.blocks
        by_cases hemp : threadChunks t s.out = []
        · -- thread t has not written yet: append a fresh block for it
          have hnotin : t ∉ bs.map Prod.fst := by
            intro hmem
            obtain ⟨b, hb, hb1⟩ := List.mem_map.mp hmem
            have hmem' : (t, b.2) ∈ bs := by rw [← hb1]; simpa using hb
            have : threadChunks t s.out = b.2 := by
              rw [hout]
              exact threadChunks_blocksFlatten_of_mem t b.2 bs hmem' hnd
            exact hne b hb (by rw [← this, hemp])
          refine ⟨bs ++ [(t, [c])], ?_, ?_, ?_, ?_⟩
          · rw [blocksFlatten_append, ← hout]
            simp [blocksFlatten]
          · rw [List.map_append, List.nodup_append]
            refine ⟨hnd, by simp, ?_⟩
            intro x hx hx'
            simp only [List.map_cons, List.map_nil, List.mem_singleton] at hx'
            subst hx'
            exact hnotin hx
          · intro b hb
            rcases List.mem_append.mp hb with hb | hb
            · exact hne b hb
            · simp only [List.mem_singleton] at hb
              subst hb; simp
          · intro b hb rem h
            rw [List.dropLast_concat] at hb
            by_cases hbt : b.1 = t
            · exact hnotin (List.mem_map.mpr ⟨b, hb, hbt⟩)
            · rw [Function.update_noteq hbt] at h
              have := hinv.lockHolder b.1 rem h
              rw [hold] at this
              exact hbt (Option.some.inj this).symm
        · -- thread t owns the last block: extend it
          have hmemt : t ∈ bs.map Prod.fst := by
            by_contra hc
            exact hemp (by rw [hout]; exact threadChunks_blocksFlatten_of_not_mem t bs hc)
          have hbs : bs ≠ [] := by
            intro hn; rw [hn] at hmemt; simp at hmemt
          have hsplit : bs.dropLast ++ [bs.getLast hbs] = bs :=
            List.dropLast_append_getLast hbs
          have hlast1 : (bs.getLast hbs).1 = t := by
            by_contra hc
            have hmemt' : t ∈ bs.dropLast.map Prod.fst := by
              have : t ∈ (bs.dropLast ++ [bs.getLast hbs]).map Prod.fst := by
                rw [hsplit]; exact hmemt
              rw [List.map_append] at this
              rcases List.mem_append.mp this with h | h
              · exact h
              · simp only [List.map_cons, List.map_nil, List.mem_singleton] at h
                exact absurd h.symm hc
            obtain ⟨b, hb, hb1⟩ := List.mem_map.mp hmemt'
            exact hlast b hb (c :: rest) (by rw [hb1]; exact hph)
          refine ⟨bs.dropLast ++ [(t, (bs.getLast hbs).2 ++ [c])], ?_, ?_, ?_, ?_⟩
          · have hflat : blocksFlatten bs =
                blocksFlatten bs.dropLast ++
                  ((bs.getLast hbs).2.map fun c' => (t, c')) := by
              conv_lhs => rw [← hsplit]
              rw [blocksFlatten_append]
              simp [blocksFlatten, hlast1]
            rw [hout, hflat, blocksFlatten_append]
            simp [blocksFlatten, List.append_assoc]
          · have : (bs.dropLast ++ [(t, (bs.getLast hbs).2 ++ [c])]).map Prod.fst =
                bs.map Prod.fst := by
              conv_rhs => rw [← hsplit]
              simp [hlast1]
            rw [this]; exact hnd
          · intro b hb
            rcases List.mem_append.mp hb with hb | hb
            · exact hne b ((List.dropLast_sublist bs).subset hb)
            · simp only [List.mem_singleton] at hb
              subst hb; simp
          · intro b hb rem h
            rw [List.dropLast_concat] at hb
            by_cases hbt : b.1 = t
            · have hnd' : (bs.dropLast.map Prod.fst ++ [t]).Nodup := by
                have : (bs.dropLast ++ [bs.getLast hbs]).map Prod.fst =
                    bs.dropLast.map Prod.fst ++ [t] := by simp [hlast1]
                rw [← this, hsplit]; exact hnd
              rw [List.nodup_append] at hnd'
              exact hnd'.2.2 (List.mem_map.mpr ⟨b, hb, hbt⟩) (by simp)
            · rw [Function.update_noteq hbt] at h
              exact hlast b hb rem h
  | release t hold hph =>
      constructor <;> dsimp only
      · intro u rem h
        by_cases hu : u = t
        · subst hu; rw [Function.update_same] at h; cases h
        · rw [Function.update_noteq hu] at h
          have := hinv.lockHolder u rem h
          rw [hold] at this
          exact absurd (Option.some.inj this) (fun he => hu he.symm)
      · intro u h; cases h
      · intro u cs' h
        by_cases hu : u = t
        · subst hu; rw [Function.update_same] at h; cases h
        · rw [Function.update_noteq hu] at h
          exact hinv.startInit u cs' h
      · intro u rem h
        by_cases hu : u = t
        · subst hu; rw [Function.update_same] at h; cases h
        · rw [Function.update_noteq hu] at h
          have := hinv.lockHolder u rem h
          rw [hold] at this
          exact absurd (Option.some.inj this) (fun he => hu he.symm)
      · intro u h
        by_cases hu : u = t
        · subst hu
          have hp := hinv.lockedProgress u [] hph
          rw [List.append_nil] at hp
          exact hp.symm
        · rw [Function.update_noteq hu] at h
          exact hinv.finishedDone u h
      · obtain ⟨bs, hout, hnd, hne, hlast⟩ := hinv.blocks
        refine ⟨bs, hout, hnd, hne, ?_⟩
        intro b hb rem h
        by_cases hbt : b.1 = t
        · rw [hbt, Function.update_same] at h; cases h
        · rw [Function.update_noteq hbt] at h
          exact hlast b hb rem h

theorem syncEncInv_reachable {n : Nat} (chunksOf : Fin n → List String)
    {s : SyncEncState n} (h : SyncEncReachable chunksOf s) :
    SyncEncInv chunksOf s := by
  induction h with
  | refl => exact syncEncInv_init chunksOf
  | tail _ hstep ih => exact syncEncInv_step chunksOf hstep ih

/-! ### Helper lemmas about the serve loop -/

theorem serveLoop_append_ok (mh : Message → HandlerBehavior) (st : String)
    (msgs : List Message) (rest : List DecodeOutcome) :
    serveLoop mh st (msgs.map DecodeOutcome.ok ++ rest) =
      { dispatched := msgs ++ (serveLoop mh st rest).dispatched,
        wgAdds := msgs.length + (serveLoop mh st rest).wgAdds,
        decodeErrorLogs := (serveLoop mh st rest).decodeErrorLogs,
        goroutines := msgs.map (serveGoroutine mh st) ++ (serveLoop mh st rest).goroutines,
        handlerWrites := (msgs.map fun m => (mh m).writes) ++
          (serveLoop mh st rest).handlerWrites,
        reterr := (serveLoop mh st rest).reterr } := by
  induction msgs with
  | nil => simp
  | cons m ms ih =>
      rw [List.map_cons, List.cons_append]
      simp only [serveLoop]
      rw [ih]
      simp only [ServeResult.mk.injEq, List.cons_append, List.length_cons, List.map_cons,
        and_true, true_and]
      omega

/-- The theorem for claim C1 below states everything about
`msgs.map ok ++ [eof]`; this helper instantiates `serveLoop_append_ok`. -/
theorem serveLoop_ok_eof (mh : Message → HandlerBehavior) (st : String)
    (msgs : List Message) :
    serveLoop mh st (msgs.map DecodeOutcome.ok ++ [DecodeOutcome.eof]) =
      { dispatched := msgs,
        wgAdds := msgs.length,
        decodeErrorLogs := [],
        goroutines := msgs.map (serveGoroutine mh st),
        handlerWrites := msgs.map fun m => (mh m).writes,
        reterr := some TermErr.eof } := by
  rw [serveLoop_append_ok]
  simp [serveLoop]

/-! ### Claim theorems about the serve loop -/

/-- C1: for every finite input stream of N well-formed messages followed by
end-of-stream, `Serve` dispatches the handler exactly N times, once per
decoded message, on one goroutine each, and dispatch order equals the order
of the messages on the input stream; `Serve` then returns `io.EOF`. -/
theorem Serve_dispatches_each_message_in_order
    (mh : Message → HandlerBehavior) (st : String) (oe : EncoderVal)
    (msgs : List Message) :
    ((MessageServer.mk (msgs.map DecodeOutcome.ok ++ [DecodeOutcome.eof]) oe mh).Serve
        st).dispatched = msgs ∧
    ((MessageServer.mk (msgs.map DecodeOutcome.ok ++ [DecodeOutcome.eof]) oe mh).Serve
        st).goroutines = msgs.map (serveGoroutine mh st) ∧
    ((MessageServer.mk (msgs.map DecodeOutcome.ok ++ [DecodeOutcome.eof]) oe mh).Serve
        st).handlerWrites = msgs.map (fun m => (mh m).writes) ∧
    ((MessageServer.mk (msgs.map DecodeOutcome.ok ++ [DecodeOutcome.eof]) oe mh).Serve
        st).reterr = some TermErr.eof := by
  simp [MessageServer.Serve, serveLoop_ok_eof]

/-- C3: the serve loop stops, and `Serve` returns, exactly when a decode
attempt yields `io.EOF` or `io.ErrUnexpectedEOF` — the returned value is the
first such condition on the stream — and no other decode outcome terminates
the loop. -/
theorem Serve_returns_exactly_on_stream_termination
    (mh : Message → HandlerBehavior) (st : String) (s : List DecodeOutcome) :
    (serveLoop mh st s).reterr = s.findSome? classifyTerm ∧
    ((serveLoop mh st s).reterr = none ↔ ∀ o ∈ s, classifyTerm o = none) := by
  have key : ∀ s : List DecodeOutcome,
      (serveLoop mh st s).reterr = s.findSome? classifyTerm := by
    intro s
    induction s with
    | nil => rfl
    | cons o rest ih =>
        cases o <;> simp [serveLoop, classifyTerm, ih]
  refine ⟨key s, ?_⟩
  rw [key s]
  constructor
  · intro h o ho
    induction s with
    | nil => cases ho
    | cons o' rest ih =>
        rw [List.findSome?_cons] at h
        rcases List.mem_cons.mp ho with he | he
        · subst he
          cases hc : classifyTerm o with
          | none => rfl
          | some t => rw [hc] at h; cases h
        · cases hc : classifyTerm o' with
          | none => rw [hc] at h; exact ih h he
          | some t => rw [hc] at h; cases h
  · intro h
    induction s with
    | nil => rfl
    | cons o' rest ih =>
        rw [List.findSome?_cons, h o' (List.mem_cons_self o' rest)]
        exact ih fun o ho => h o (List.mem_cons_of_mem o' ho)

/-- C4: a decode attempt failing with a non-terminal error is logged, its
partially decoded message is discarded, and the loop continues: one
malformed message between two runs of well-formed messages leaves exactly
one error log, and every well-formed message is still dispatched. -/
theorem Serve_recovers_from_malformed_message
    (mh : Message → HandlerBehavior) (st : String) (e : String) (pm : Message)
    (msgs₁ msgs₂ : List Message) :
    (serveLoop mh st (msgs₁.map DecodeOutcome.ok ++ DecodeOutcome.err e pm ::
        (msgs₂.map DecodeOutcome.ok ++ [DecodeOutcome.eof]))).dispatched =
      msgs₁ ++ msgs₂ ∧
    (serveLoop mh st (msgs₁.map DecodeOutcome.ok ++ DecodeOutcome.err e pm ::
        (msgs₂.map DecodeOutcome.ok ++ [DecodeOutcome.eof]))).decodeErrorLogs =
      [decodeErrorLog e] ∧
    (serveLoop mh st (msgs₁.map DecodeOutcome.ok ++ DecodeOutcome.err e pm ::
        (msgs₂.map DecodeOutcome.ok ++ [DecodeOutcome.eof]))).reterr =
      some TermErr.eof := by
  rw [serveLoop_append_ok]
  simp [serveLoop, serveLoop_ok_eof]

/-- C9: an iteration whose decode attempt fails with a recoverable error has
no effect on the server's state beyond the log line: nothing is dispatched,
the in-flight counter is not incremented, no goroutine is spawned, no
handler write happens, and the loop's eventual return value is unchanged. -/
theorem Serve_decode_error_iteration_has_no_effect
    (mh : Message → HandlerBehavior) (st : String) (e : String) (pm : Message)
    (rest : List DecodeOutcome) :
    (serveLoop mh st (DecodeOutcome.err e pm :: rest)).dispatched =
      (serveLoop mh st rest).dispatched ∧
    (serveLoop mh st (DecodeOutcome.err e pm :: rest)).wgAdds =
      (serveLoop mh st rest).wgAdds ∧
    (serveLoop mh st (DecodeOutcome.err e pm :: rest)).goroutines =
      (serveLoop mh st rest).goroutines ∧
    (serveLoop mh st (DecodeOutcome.err e pm :: rest)).handlerWrites =
      (serveLoop mh st rest).handlerWrites ∧
    (serveLoop mh st (DecodeOutcome.err e pm :: rest)).reterr =
      (serveLoop mh st rest).reterr ∧
    (serveLoop mh st (DecodeOutcome.err e pm :: rest)).decodeErrorLogs =
      decodeErrorLog e :: (serveLoop mh st rest).decodeErrorLogs :=
  ⟨rfl, rfl, rfl, rfl, rfl, rfl⟩

/-- The dispatch trace and return value of the serve loop do not depend on
the handler (or on the stack traces panics would produce): faults inside
handler invocations never reach the decode loop. -/
theorem serveLoop_independent_of_handler (mh mh' : Message → HandlerBehavior)
    (st st' : String) (s : List DecodeOutcome) :
    (serveLoop mh st s).dispatched = (serveLoop mh' st' s).dispatched ∧
    (serveLoop mh st s).wgAdds = (serveLoop mh' st' s).wgAdds ∧
    (serveLoop mh st s).reterr = (serveLoop mh' st' s).reterr := by
  induction s with
  | nil => exact ⟨rfl, rfl, rfl⟩
  | cons o rest ih => cases o <;> simp [serveLoop, ih.1, ih.2.1, ih.2.2]

/-- A handler that always panics, used to exhibit claim C5 concretely. -/
def panickingHandler : Message → HandlerBehavior :=
  fun _ => { writes := [], outcome := Outcome.panic "boom" }

/-- C5: a handler invocation that panics is caught at its goroutine's
boundary: the deferred `recover` logs the panic value with the stack trace,
`wg.Done()` still runs exactly once, no panic escapes the goroutine (so the
process does not crash), and the decode loop's dispatching and return value
are unaffected by the handler's behavior. -/
theorem Serve_goroutine_contains_handler_panic
    (mh : Message → HandlerBehavior) (st : String) (m : Message) (v : String)
    (h : (mh m).outcome = Outcome.panic v) :
    (serveGoroutine mh st m).wgDoneCalls = 1 ∧
    (serveGoroutine mh st m).escaped = none ∧
    (serveGoroutine mh st m).panicLogs = [{ panicValue := v, stackTrace := st }] ∧
    (∀ mh' : Message → HandlerBehavior, ∀ s : List DecodeOutcome,
      (serveLoop mh st s).dispatched = (serveLoop mh' st s).dispatched ∧
      (serveLoop mh st s).reterr = (serveLoop mh' st s).reterr) := by
  refine ⟨?_, ?_, ?_, ?_⟩
  · simp [serveGoroutine, runDeferredStack, h]
  · simp [serveGoroutine, runDeferredStack, h]
  · simp [serveGoroutine, runDeferredStack, h]
  · intro mh' s
    exact ⟨(serveLoop_independent_of_handler mh mh' st st s).1,
      (serveLoop_independent_of_handler mh mh' st st s).2.2⟩

/-- Witness for C5 at a concrete panicking handler. -/
theorem Serve_goroutine_contains_handler_panic_witness :
    (serveGoroutine panickingHandler "stack" []).wgDoneCalls = 1 ∧
    (serveGoroutine panickingHandler "stack" []).escaped = none ∧
    (serveGoroutine panickingHandler "stack" []).panicLogs =
      [{ panicValue := "boom", stackTrace := "stack" }] := by
  obtain ⟨h1, h2, h3, _⟩ :=
    Serve_goroutine_contains_handler_panic panickingHandler "stack" [] "boom" rfl
  exact ⟨h1, h2, h3⟩

/-- C7: `SyncEncoder.Encode` takes the mutex (a held mutex blocks the call),
invokes the inner encoder, releases the mutex on every exit path, and
returns the inner encoder's result — error or not — unchanged; the encoder
stays usable afterwards, so a whole sequence of calls runs to completion
with each call returning its own inner result even when some fail. -/
theorem SyncEncoder_Encode_releases_lock_and_returns_error
    (innerEncode : Message → Except String Unit) (m : Message)
    (ms : List Message) :
    SyncEncoder.Encode innerEncode m true = none ∧
    SyncEncoder.Encode innerEncode m false = some (false, innerEncode m) ∧
    SyncEncoder.encodeAll innerEncode ms false = some (false, ms.map innerEncode) := by
  refine ⟨rfl, rfl, ?_⟩
  induction ms with
  | nil => rfl
  | cons m' ms' ih => simp [SyncEncoder.encodeAll, SyncEncoder.Encode, ih]

/-- Unfolding equation of `serveLoopFuel` at positive fuel. -/
theorem serveLoopFuel_succ (dec : Nat → DecodeOutcome) (fuel i : Nat) :
    serveLoopFuel dec (fuel + 1) i =
      match dec i with
      | DecodeOutcome.eof => some TermErr.eof
      | DecodeOutcome.unexpectedEOF => some TermErr.unexpectedEOF
      | DecodeOutcome.err _ _ => serveLoopFuel dec fuel (i + 1)
      | DecodeOutcome.ok _ => serveLoopFuel dec fuel (i + 1) := rfl

/-- C8: the serve loop terminates only when some decode attempt yields
`io.EOF` or `io.ErrUnexpectedEOF`; a decoder that keeps returning the same
recoverable error makes the loop spin forever (no amount of fuel makes it
return). -/
theorem Serve_terminates_only_on_eof_and_spins_on_persistent_error
    (dec : Nat → DecodeOutcome) :
    (∀ fuel i t, serveLoopFuel dec fuel i = some t →
      ∃ j, i ≤ j ∧ j < i + fuel ∧ classifyTerm (dec j) = some t) ∧
    (∀ e pm, (∀ i, dec i = DecodeOutcome.err e pm) →
      ∀ fuel i, serveLoopFuel dec fuel i = none) := by
  constructor
  · intro fuel
    induction fuel with
    | zero => intro i t h; cases h
    | succ fuel ih =>
        intro i t h
        rw [serveLoopFuel_succ] at h
        cases hd : dec i with
        | eof =>
            rw [hd] at h
            refine ⟨i, Nat.le_refl i, by omega, ?_⟩
            rw [hd]
            cases h
            rfl
        | unexpectedEOF =>
            rw [hd] at h
            refine ⟨i, Nat.le_refl i, by omega, ?_⟩
            rw [hd]
            cases h
            rfl
        | err e pm =>
            rw [hd] at h
            obtain ⟨j, hj1, hj2, hj3⟩ := ih (i + 1) t h
            exact ⟨j, by omega, by omega, hj3⟩
        | ok m =>
            rw [hd] at h
            obtain ⟨j, hj1, hj2, hj3⟩ := ih (i + 1) t h
            exact ⟨j, by omega, by omega, hj3⟩
  · intro e pm hall fuel
    induction fuel with
    | zero => intro i; rfl
    | succ fuel ih =>
        intro i
        rw [serveLoopFuel_succ, hall i]
        exact ih (i + 1)

/-- Witness for C8: a decoder stuck on one malformed token never lets the
loop return. -/
theorem Serve_spins_on_persistent_error_witness :
    serveLoopFuel (fun _ => DecodeOutcome.err "invalid character" []) 100 0 = none :=
  (Serve_terminates_only_on_eof_and_spins_on_persistent_error
    (fun _ => DecodeOutcome.err "invalid character" [])).2
    "invalid character" [] (fun _ => rfl) 100 0

/-- C10: the writer `Serve` hands to handlers delegates each write directly
to the configured `OutEncoder` with no locking of its own — a bare
`json.Encoder` configured directly performs only the raw stream write,
while `NewStdMessageServer` wires a `SyncEncoder`-wrapped stdout encoder,
whose writes are bracketed by the mutex. -/
theorem WriteMessage_delegates_directly_to_OutEncoder
    (ms : MessageServer) (m : Message) (stdin : List DecodeOutcome)
    (h : Message → HandlerBehavior) (oe : EncoderVal)
    (mh : Message → HandlerBehavior) :
    (ms.serveWriter.WriteMessage m = ms.OutEncoder.Encode m) ∧
    ((MessageServer.mk stdin EncoderVal.jsonEncoder mh).serveWriter.WriteMessage m =
      [EncAction.streamWrite m]) ∧
    ((NewStdMessageServer stdin h).OutEncoder =
      EncoderVal.syncEncoder EncoderVal.jsonEncoder) ∧
    ((NewStdMessageServer stdin h).serveWriter.WriteMessage m =
      [EncAction.lockAcquire, EncAction.streamWrite m, EncAction.lockRelease]) ∧
    (EncoderMessageWriter.WriteMessage { Encoder := oe } m = oe.Encode m) :=
  ⟨rfl, rfl, rfl, rfl, rfl⟩

/-- Every completion in a feasible trace names a task dispatched before it
(bounded by the total dispatch count) and not completed twice. -/
theorem feasibleAux_spec : ∀ (tr : List WGEvent) (d : Nat) (cs : List Nat),
    feasibleAux d cs tr = true →
    (∀ i ∈ doneTasks tr, i < d + addsCount tr ∧ i ∉ cs) ∧ (doneTasks tr).Nodup := by
  intro tr
  induction tr with
  | nil => intro d cs _; exact ⟨by simp [doneTasks], by simp [doneTasks]⟩
  | cons e tr ih =>
      intro d cs h
      cases e with
      | add =>
          rw [show feasibleAux d cs (WGEvent.add :: tr) = feasibleAux (d + 1) cs tr
            from rfl] at h
          obtain ⟨h1, h2⟩ := ih (d + 1) cs h
          refine ⟨?_, h2⟩
          intro i hi
          obtain ⟨hl, hn⟩ := h1 i (by simpa [doneTasks] using hi)
          exact ⟨by simp [addsCount] at hl ⊢; omega, hn⟩
      | done j =>
          rw [show feasibleAux d cs (WGEvent.done j :: tr) =
              (decide (j < d) && decide (j ∉ cs) && feasibleAux d (j :: cs) tr)
            from rfl] at h
          simp only [Bool.and_eq_true, decide_eq_true_eq] at h
          obtain ⟨⟨hjd, hjcs⟩, hrest⟩ := h
          obtain ⟨h1, h2⟩ := ih d (j :: cs) hrest
          refine ⟨?_, ?_⟩
          · intro i hi
            simp only [doneTasks, List.mem_cons] at hi
            rcases hi with hi | hi
            · subst hi
              exact ⟨by simp [addsCount]; omega, hjcs⟩
            · obtain ⟨hl, hn⟩ := h1 i hi
              refine ⟨by simpa [addsCount] using hl, ?_⟩
              intro hc
              exact hn (List.mem_cons_of_mem j hc)
          · simp only [doneTasks, List.nodup_cons]
            refine ⟨?_, h2⟩
            intro hc
            exact (h1 j hc).2 (List.mem_cons_self j cs)

/-- Dispatching one more task keeps a trace feasible: a completed wait does
not block later dispatches. -/
theorem feasibleAux_append_add : ∀ (tr : List WGEvent) (d : Nat) (cs : List Nat),
    feasibleAux d cs tr = true → feasibleAux d cs (tr ++ [WGEvent.add]) = true := by
  intro tr
  induction tr with
  | nil => intro d cs _; rfl
  | cons e tr ih =>
      intro d cs h
      cases e with
      | add => exact ih (d + 1) cs h
      | done j =>
          rw [show feasibleAux d cs (WGEvent.done j :: tr) =
              (decide (j < d) && decide (j ∉ cs) && feasibleAux d (j :: cs) tr)
            from rfl] at h
          simp only [Bool.and_eq_true] at h
          show (decide (j < d) && decide (j ∉ cs) &&
            feasibleAux d (j :: cs) (tr ++ [WGEvent.add])) = true
          rw [ih d (j :: cs) h.2]
          simp [h.1.1, h.1.2]

/-- C6: the in-flight tracker reaches zero only once every dispatched
goroutine has run its `wg.Done()` — so `Wait`, which returns exactly at a
zero counter, cannot return before every dispatched handler task completed
— and a trace on which `Wait` has returned can still feasibly dispatch
further tasks, so calling `Wait` while `Serve` runs is safe and stops no
new dispatch. -/
theorem Wait_returns_only_after_all_dispatched_complete
    (tr : List WGEvent) (hf : Feasible tr) (hw : waitReturns tr) :
    (∀ i < addsCount tr, i ∈ doneTasks tr) ∧ Feasible (tr ++ [WGEvent.add]) := by
  obtain ⟨h1, h2⟩ := feasibleAux_spec tr 0 [] hf
  constructor
  · intro i hi
    have hbound : ∀ j ∈ doneTasks tr, j < addsCount tr := by
      intro j hj
      simpa using (h1 j hj).1
    have hsub : (doneTasks tr).toFinset ⊆ Finset.range (addsCount tr) := by
      intro x hx
      exact Finset.mem_range.mpr (hbound x (List.mem_toFinset.mp hx))
    have hcard : (doneTasks tr).toFinset.card = (doneTasks tr).length :=
      List.toFinset_card_of_nodup h2
    have hlen : addsCount tr ≤ (doneTasks tr).length := by
      have := hw
      unfold waitReturns wgCounter at this
      omega
    have heq : (doneTasks tr).toFinset = Finset.range (addsCount tr) := by
      apply Finset.eq_of_subset_of_card_le hsub
      rw [hcard, Finset.card_range]
      exact hlen
    have : i ∈ (doneTasks tr).toFinset := by
      rw [heq]
      exact Finset.mem_range.mpr hi
    exact List.mem_toFinset.mp this
  · exact feasibleAux_append_add tr 0 [] hf

/-- Witness for C6 at the trace of two dispatches followed by their two
completions. -/
theorem Wait_returns_only_after_all_dispatched_complete_witness :
    0 ∈ doneTasks [WGEvent.add, WGEvent.add, WGEvent.done 0, WGEvent.done 1] ∧
    1 ∈ doneTasks [WGEvent.add, WGEvent.add, WGEvent.done 0, WGEvent.done 1] ∧
    Feasible ([WGEvent.add, WGEvent.add, WGEvent.done 0, WGEvent.done 1] ++
      [WGEvent.add]) := by
  obtain ⟨h1, h2⟩ := Wait_returns_only_after_all_dispatched_complete
    [WGEvent.add, WGEvent.add, WGEvent.done 0, WGEvent.done 1] rfl rfl
  exact ⟨h1 0 (by decide), h1 1 (by decide), h2⟩

/-- C2: in every reachable interleaving of concurrent `SyncEncoder.Encode`
calls, at most one encode executes at any instant (any two threads inside
the critical section coincide), and once all calls finished, the shared
output stream is a sequence of whole per-thread serializations — each
thread's chunks contiguous, one block per thread — so the serialized bytes
of two distinct messages are never interleaved. -/
theorem SyncEncoder_mutual_exclusion_and_no_interleaving {n : Nat}
    (chunksOf : Fin n → List String) (s : SyncEncState n)
    (h : SyncEncReachable chunksOf s) :
    (∀ t u remt remu, s.phases t = EncPhase.locked remt →
      s.phases u = EncPhase.locked remu → t = u) ∧
    ((∀ t, s.phases t = EncPhase.finished) →
      ∃ bs : List (Fin n × List String),
        s.out = blocksFlatten bs ∧
        (bs.map Prod.fst).Nodup ∧
        (∀ b ∈ bs, b.2 = chunksOf b.1) ∧
        (∀ t, chunksOf t ≠ [] → t ∈ bs.map Prod.fst)) := by
  have hinv := syncEncInv_reachable chunksOf h
  constructor
  · intro t u remt remu ht hu
    have h1 := hinv.lockHolder t remt ht
    have h2 := hinv.lockHolder u remu hu
    exact Option.some.inj (h1.symm.trans h2)
  · intro hfin
    obtain ⟨bs, hout, hnd, hne, _⟩ := hinv.blocks
    refine ⟨bs, hout, hnd, ?_, ?_⟩
    · intro b hb
      have h1 : (b.1, b.2) ∈ bs := by simpa using hb
      have h2 := hinv.finishedDone b.1 (hfin b.1)
      rw [hout, threadChunks_blocksFlatten_of_mem b.1 b.2 bs h1 hnd] at h2
      exact h2
    · intro t hne'
      by_contra hc
      have h2 := hinv.finishedDone t (hfin t)
      rw [hout, threadChunks_blocksFlatten_of_not_mem t bs hc] at h2
      exact hne' h2.symm

/-- Serializations for a two-thread demonstration run: thread 0 writes two
chunks, thread 1 one chunk. -/
def demoChunks : Fin 2 → List String :=
  fun t => if t.val = 0 then ["a1", "a2"] else ["b1"]

/-- The demonstration run's states: thread 0 encodes completely, then
thread 1 does. -/
def demoS0 : SyncEncState 2 := initSyncEnc demoChunks

def demoS1 : SyncEncState 2 :=
  { lock := some 0,
    phases := Function.update demoS0.phases 0 (EncPhase.locked ["a1", "a2"]),
    out := demoS0.out }

def demoS2 : SyncEncState 2 :=
  { lock := demoS1.lock,
    phases := Function.update demoS1.phases 0 (EncPhase.locked ["a2"]),
    out := demoS1.out ++ [(0, "a1")] }

def demoS3 : SyncEncState 2 :=
  { lock := demoS2.lock,
    phases := Function.update demoS2.phases 0 (EncPhase.locked []),
    out := demoS2.out ++ [(0, "a2")] }

def demoS4 : SyncEncState 2 :=
  { lock := none,
    phases := Function.update demoS3.phases 0 EncPhase.finished,
    out := demoS3.out }

def demoS5 : SyncEncState 2 :=
  { lock := some 1,
    phases := Function.update demoS4.phases 1 (EncPhase.locked ["b1"]),
    out := demoS4.out }

def demoS6 : SyncEncState 2 :=
  { lock := demoS5.lock,
    phases := Function.update demoS5.phases 1 (EncPhase.locked []),
    out := demoS5.out ++ [(1, "b1")] }

def demoS7 : SyncEncState 2 :=
  { lock := none,
    phases := Function.update demoS6.phases 1 EncPhase.finished,
    out := demoS6.out }

theorem demo_reachable : SyncEncReachable demoChunks demoS7 := by
  have h1 : SyncEncStep demoS0 demoS1 :=
    SyncEncStep.acquire demoS0 0 ["a1", "a2"] rfl (by decide)
  have h2 : SyncEncStep demoS1 demoS2 :=
    SyncEncStep.emit demoS1 0 "a1" ["a2"] (by decide) (by decide)
  have h3 : SyncEncStep demoS2 demoS3 :=
    SyncEncStep.emit demoS2 0 "a2" [] (by decide) (by decide)
  have h4 : SyncEncStep demoS3 demoS4 :=
    SyncEncStep.release demoS3 0 (by decide) (by decide)
  have h5 : SyncEncStep demoS4 demoS5 :=
    SyncEncStep.acquire demoS4 1 ["b1"] rfl (by decide)
  have h6 : SyncEncStep demoS5 demoS6 :=
    SyncEncStep.emit demoS5 1 "b1" [] (by decide) (by decide)
  have h7 : SyncEncStep demoS6 demoS7 :=
    SyncEncStep.release demoS6 1 (by decide) (by decide)
  exact Relation.ReflTransGen.tail
    (Relation.ReflTransGen.tail
      (Relation.ReflTransGen.tail
        (Relation.ReflTransGen.tail
          (Relation.ReflTransGen.tail
            (Relation.ReflTransGen.tail
              (Relation.ReflTransGen.tail Relation.ReflTransGen.refl h1) h2) h3)
          h4) h5) h6) h7

/-- Witness for C2 at the demonstration run: all threads finished, and the
output decomposes into whole per-thread blocks. -/
theorem SyncEncoder_no_interleaving_witness :
    ∃ bs : List (Fin 2 × List String),
      demoS7.out = blocksFlatten bs ∧
      (bs.map Prod.fst).Nodup ∧
      (∀ b ∈ bs, b.2 = demoChunks b.1) ∧
      (∀ t, demoChunks t ≠ [] → t ∈ bs.map Prod.fst) :=
  (SyncEncoder_mutual_exclusion_and_no_interleaving demoChunks demoS7
    demo_reachable).2 (by decide)

end Stdiocmd
